import Mathlib

/-!
# libstr: a shallow embedding of `libstr.h`

A `char` is modelled by `Char`, a `std::string` by `List Char`, and the
`const char*` template of `sformat` by the list of the characters of its
buffer: the characters of the template followed by the terminating NUL.  A
pointer into the buffer is the suffix that starts where it points; the empty
suffix is the position one past the terminator, which must not be read.

`std::string::size_type` is a 64-bit unsigned integer, modelled by `Nat` with
arithmetic modulo `2 ^ 64`.
-/

namespace libstr

/-! ## Results of a call -/

/-- The exceptions of `<stdexcept>` that the library can throw. -/
inductive Exn where
  | invalid_argument (what : String)
  | out_of_range (what : String)
  deriving DecidableEq, Repr

/-- How a call ends: it returns a value, throws, reads memory outside the
array it works on, such as the template beyond its terminating NUL (undefined
behaviour), calls `GetTupleArgByIndex` on the empty tuple (for which no overload
exists), or the loop bound of the model runs out. -/
inductive Outcome (α : Type) where
  | returned (a : α)
  | threw (e : Exn)
  | readPastEnd
  | noOverload
  | outOfFuel
  deriving DecidableEq, Repr

/-- The call raised an exception. -/
def Outcome.raises {α : Type} : Outcome α → Prop
  | .threw _ => True
  | _ => False

instance {α : Type} (o : Outcome α) : Decidable o.raises := by
  cases o <;> unfold Outcome.raises <;> infer_instance

/-- Applies a function to the returned value. -/
def Outcome.map {α β : Type} (f : α → β) : Outcome α → Outcome β
  | .returned a => .returned (f a)
  | .threw e => .threw e
  | .readPastEnd => .readPastEnd
  | .noOverload => .noOverload
  | .outOfFuel => .outOfFuel

/-! ## Character classes and library primitives -/

/-- The terminator of a C string. -/
def NUL : Char := Char.ofNat 0

/-- The C function `isdigit`. -/
def isdigit (c : Char) : Bool := decide (48 ≤ c.toNat ∧ c.toNat ≤ 57)

/-- The C function `isspace` (in the "C" locale). -/
def isspace (c : Char) : Bool :=
  c.toNat = 32 || (decide (9 ≤ c.toNat) && decide (c.toNat ≤ 13))

/-- The value of a run of decimal digits, most significant first. -/
def digitsValue (ds : List Char) : Nat :=
  ds.foldl (fun acc c => 10 * acc + (c.toNat - 48)) 0

def INT_MIN : Int := -2147483648

def INT_MAX : Int := 2147483647

/-- The function `std::stoi(str)` in base 10: skips leading white space, reads
an optional sign and the longest run of digits, ignores what follows; throws
`std::invalid_argument` when there is no digit and `std::out_of_range` when the
value is not an `int`. -/
def stoi (str : List Char) : Except Exn Int :=
  let s1 := str.dropWhile isspace
  let neg := s1.head? = some '-'
  let s2 := if s1.head? = some '-' ∨ s1.head? = some '+' then s1.tail else s1
  let ds := s2.takeWhile isdigit
  if ds.isEmpty then
    .error (.invalid_argument "stoi")
  else
    let v : Int := if neg then -(digitsValue ds : Int) else (digitsValue ds : Int)
    if v < INT_MIN ∨ INT_MAX < v then .error (.out_of_range "stoi") else .ok v

/-- The function `std::to_string` on an `int`: its decimal text. -/
def to_string (a : Int) : List Char := (toString a).toList

/-! ## Helper functions of the library -/

/-- `GetTupleArgByIndex(tp, index)`: the one-element overload returns the
element whatever the index; the general overload steps to the tail of the tuple
while `index > 0`.  The tuple of the arguments is the list `tp`. -/
def GetTupleArgByIndex : List Int → Nat → Option Int
  | [], _ => none
  | [a], _ => some a
  | a :: b :: tp, index =>
    if index > 0 then GetTupleArgByIndex (b :: tp) (index - 1) else some a

/-- Modelled from the spec: `GetArgByIndex`, which `sformat` calls for a manual
index, is not defined in the source; the spec says that a manual placeholder
substitutes `args[index]`. -/
def GetArgByIndex (args : List Int) (index : Nat) : Option Int := args[index]?

/-- `isNumeric(s)`: `s` is not empty and, after an optional leading sign, some
character of it is a digit (`std::any_of`). -/
def isNumeric (s : List Char) : Bool :=
  !s.isEmpty &&
    List.any (if s.head? = some '-' ∨ s.head? = some '+' then s.tail else s) isdigit

/-! ## sformat -/

/-- The local variables of `sformat`. -/
structure FmtState where
  autoIncrease : Bool
  autoIncreaseIndex : Nat
  result : List Char
  deriving DecidableEq, Repr

/-- The inner loop `while (*fmt++ != '}') { indexStr += *fmt; }`: `fmt` is
tested, advanced, and the character it then points to is appended.  Returns
`indexStr` and the advanced `fmt`, or `none` when a read falls beyond the
terminating NUL. -/
def scanIndexStr : List Char → List Char → Option (List Char × List Char)
  | [], _ => none
  | c :: fmt, indexStr =>
    if c ≠ '}' then
      match fmt with
      | [] => none
      | d :: _ => scanIndexStr fmt (indexStr ++ [d])
    else
      some (indexStr, fmt)

/-- What one pass through the loop of `sformat` does: it goes on to the next
iteration with new values of `fmt` and of the variables, or it ends the call. -/
inductive Step where
  | next (fmt : List Char) (st : FmtState)
  | stop (o : Outcome FmtState)
  deriving DecidableEq, Repr

/-- The test and the body of the loop `while (*fmt) { ... }` of `sformat`, with
`fmt` pointing at the head of the given suffix of the buffer. -/
def sformatBody (args : List Int) (fmt : List Char) (st : FmtState) : Step :=
  match fmt with
  | [] => .stop .readPastEnd
  | c :: fmt1 =>
    if c = NUL then
      .stop (.returned st)
    else if c = '{' then
      match fmt1 with
      | [] => .stop .readPastEnd
      | d :: fmt2 =>
        if d = '{' then
          .next fmt2 { st with result := st.result ++ ['{'] }
        else if d = '}' then
          if !st.autoIncrease then
            .stop (.threw (.invalid_argument
              "cannot switch from automatic field numbering to manual field specification"))
          else if st.autoIncreaseIndex ≥ args.length then
            .stop (.threw (.invalid_argument
              "Replacement index out of range for positional args tuple"))
          else
            match GetTupleArgByIndex args st.autoIncreaseIndex with
            | none => .stop .noOverload
            | some a =>
              .next fmt2
                { st with result := st.result ++ to_string a,
                          autoIncreaseIndex := st.autoIncreaseIndex + 1 }
        else
          if st.autoIncreaseIndex ≠ 0 then
            .stop (.threw (.invalid_argument
              "cannot switch from automatic field numbering to manual field specification"))
          else
            match scanIndexStr fmt [] with
            | none => .stop .readPastEnd
            | some (indexStr, fmt3) =>
              if isNumeric indexStr then
                match stoi indexStr with
                | .error e => .stop (.threw e)
                | .ok index =>
                  if index < 0 ∨ index ≥ (args.length : Int) then
                    .stop (.threw (.invalid_argument "Index out of range"))
                  else
                    match GetArgByIndex args index.toNat with
                    | none => .stop .noOverload
                    | some a =>
                      .next fmt3
                        { st with autoIncrease := false,
                                  result := st.result ++ to_string a }
              else
                .next fmt3
                  { st with autoIncrease := false,
                            result := st.result ++ (['{'] ++ indexStr ++ ['}']) }
    else if c = '}' then
      match fmt1 with
      | [] => .stop .readPastEnd
      | d :: fmt2 =>
        if d = '}' then
          .next fmt2 { st with result := st.result ++ ['}'] }
        else
          .stop (.threw (.invalid_argument
            "Single \x27\x7d\x27 encountered in format string"))
    else
      .next fmt1 { st with result := st.result ++ [c] }

/-- The loop `while (*fmt) { ... }` of `sformat`, one iteration per unit of
fuel. -/
def sformatLoop (args : List Int) : Nat → List Char → FmtState → Outcome FmtState
  | 0, _, _ => .outOfFuel
  | fuel + 1, fmt, st =>
    match sformatBody args fmt st with
    | .stop o => o
    | .next fmt1 st1 => sformatLoop args fuel fmt1 st1

/-- The variables of `sformat` when the loop starts. -/
def FmtState.init : FmtState :=
  { autoIncrease := true, autoIncreaseIndex := 0, result := [] }

/-- The run of `sformat(fmt, args...)` down to the final values of its
variables.  The buffer is `fmt` followed by its terminating NUL; every iteration
advances `fmt`, so the fuel is never used up. -/
def sformatRun (fmt : List Char) (args : List Int) : Outcome FmtState :=
  sformatLoop args (fmt.length + 2) (fmt ++ [NUL]) FmtState.init

/-- The body of `sformat(fmt, args...)`, once the template is instantiated for
the pack `args`. -/
def sformat (fmt : List Char) (args : List Int) : Outcome (List Char) :=
  (sformatRun fmt args).map FmtState.result

/-- A character of a template that is neither a brace nor the terminator. -/
def plainChar (c : Char) : Prop := c ≠ NUL ∧ c ≠ '{' ∧ c ≠ '}'

instance : DecidablePred plainChar := fun c => by
  unfold plainChar; infer_instance

/-- The parts a template is made of: a plain character, the placeholder `{}`,
or a placeholder `{n}` holding the characters `n`. -/
inductive Piece where
  | text (c : Char)
  | auto
  | manual (n : List Char)
  deriving DecidableEq, Repr

/-- The characters a piece is written with. -/
def Piece.source : Piece → List Char
  | .text c => [c]
  | .auto => ['{', '}']
  | .manual n => ['{'] ++ n ++ ['}']

/-- The template that a sequence of pieces spells. -/
def template : List Piece → List Char
  | [] => []
  | p :: ps => p.source ++ template ps

/-- The number of `{}` placeholders among the pieces. -/
def countAuto : List Piece → Nat
  | [] => 0
  | .auto :: ps => countAuto ps + 1
  | _ :: ps => countAuto ps

/-- A non-negative decimal integer literal: a non-empty run of digits. -/
def isLiteral (n : List Char) : Prop := n ≠ [] ∧ ∀ c ∈ n, isdigit c = true

instance (n : List Char) : Decidable (isLiteral n) := by
  unfold isLiteral; infer_instance

/-- A piece of a template made only of non-brace characters and `{}`. -/
def Piece.isAutoStyle : Piece → Prop
  | .text c => plainChar c
  | .auto => True
  | .manual _ => False

instance (p : Piece) : Decidable p.isAutoStyle := by
  cases p <;> unfold Piece.isAutoStyle <;> infer_instance

/-- A piece of a template made only of non-brace characters and placeholders
`{n}`, with `n` a decimal literal below `size`. -/
def Piece.isManualStyle (size : Nat) : Piece → Prop
  | .text c => plainChar c
  | .auto => False
  | .manual n => isLiteral n ∧ digitsValue n < size

instance (size : Nat) (p : Piece) : Decidable (p.isManualStyle size) := by
  cases p <;> unfold Piece.isManualStyle <;> infer_instance

/-- The decimal text of `args[i]` (nothing when there is no such argument). -/
def argText (args : List Int) (i : Nat) : List Char :=
  match args[i]? with
  | some a => to_string a
  | none => []

/-- The text the specification gives for a template: plain characters are kept, the
`{}` placeholders take the arguments from `next` on, one after the other, and
a placeholder `{n}` takes argument number `n`. -/
def substitute (args : List Int) : Nat → List Piece → List Char
  | _, [] => []
  | next, .text c :: ps => c :: substitute args next ps
  | next, .auto :: ps => argText args next ++ substitute args (next + 1) ps
  | next, .manual n :: ps => argText args (digitsValue n) ++ substitute args next ps

/-- The value `std::string::npos`, the largest `size_type`. -/
def npos : Nat := 18446744073709551615

/-- Addition of `size_type` values. -/
def sizeAdd (a b : Nat) : Nat := (a + b) % 18446744073709551616

/-- Subtraction of `size_type` values. -/
def sizeSub (a b : Nat) : Nat := (a + 18446744073709551616 - b) % 18446744073709551616

/-- The index of the first element that satisfies `p`. -/
def findFirst (p : Char → Bool) : List Char → Option Nat
  | [] => none
  | c :: l => if p c then some 0 else (findFirst p l).map (· + 1)

/-- `s.find_first_of(target, pos)`: the first position at or after `pos` that
holds a character of `target`, `npos` when there is none. -/
def find_first_of (s target : List Char) (pos : Nat) : Nat :=
  match findFirst (fun c => decide (c ∈ target)) (s.drop pos) with
  | some i => pos + i
  | none => npos

/-- `s.find_first_not_of(target, pos)`: the first position at or after `pos`
that holds a character not in `target`, `npos` when there is none. -/
def find_first_not_of (s target : List Char) (pos : Nat) : Nat :=
  match findFirst (fun c => !decide (c ∈ target)) (s.drop pos) with
  | some i => pos + i
  | none => npos

/-- `s.substr(pos, count)`: the characters from `pos` on, at most `count` of
them; `none` stands for the `std::out_of_range` it throws when `pos` is beyond
the size of `s`. -/
def substr (s : List Char) (pos count : Nat) : Option (List Char) :=
  if pos > s.length then none else some ((s.drop pos).take count)

/-- The `while` loop of `split` for `keepEmpty = false`, one iteration (or the
final test) per unit of fuel. -/
def splitDropLoop (s target : List Char) :
    Nat → Nat → Nat → List (List Char) → Outcome (List (List Char))
  | 0, _, _, _ => .outOfFuel
  | fuel + 1, lastPos, pos, strVec =>
    if npos ≠ lastPos ∨ npos ≠ pos then
      match substr s lastPos (sizeSub pos lastPos) with
      | none => .threw (.out_of_range "basic_string::substr")
      | some token =>
        let lastPos1 := find_first_not_of s target pos
        let pos1 := find_first_of s target lastPos1
        splitDropLoop s target fuel lastPos1 pos1 (strVec ++ [token])
    else
      .returned strVec

/-- The `for (;;)` loop of `split` for `keepEmpty = true`, one iteration per
unit of fuel. -/
def splitKeepLoop (s target : List Char) :
    Nat → Nat → Nat → List (List Char) → Outcome (List (List Char))
  | 0, _, _, _ => .outOfFuel
  | fuel + 1, lastPos, pos, strVec =>
    match substr s lastPos (sizeSub pos lastPos) with
    | none => .threw (.out_of_range "basic_string::substr")
    | some token =>
      let lastPos1 := sizeAdd pos 1
      if 0 = lastPos1 then
        .returned (strVec ++ [token])
      else
        splitKeepLoop s target fuel lastPos1 (find_first_of s target lastPos1)
          (strVec ++ [token])

/-- `split(s, target, keepEmpty)`.  Every iteration moves `lastPos` forward, so
`s.length + 1` units of fuel are enough. -/
def split (s target : List Char) (keepEmpty : Bool) : Outcome (List (List Char)) :=
  if !keepEmpty then
    let lastPos := find_first_not_of s target 0
    let pos := find_first_of s target lastPos
    splitDropLoop s target (s.length + 1) lastPos pos []
  else
    let lastPos := 0
    let pos := find_first_of s target lastPos
    splitKeepLoop s target (s.length + 1) lastPos pos []

/-- The tokens that the delimiters of `target` cut `l` into, empty ones
included: every delimiter ends a token, and what follows the last delimiter is
the last token. -/
def tokens (target : List Char) : List Char → List (List Char)
  | [] => [[]]
  | c :: l =>
    if c ∈ target then [] :: tokens target l
    else
      match tokens target l with
      | [] => [[c]]
      | t :: ts => (c :: t) :: ts


/-! ## join and the literal replace functions -/

/-- `join(strVec, connector)`: the first string, then, for every further
string, the connector and that string. -/
def join (strVec : List (List Char)) (connector : List Char) : List Char :=
  match strVec with
  | [] => []
  | first :: rest => rest.foldl (fun result str => result ++ connector ++ str) first

/-- `replace(s, target, replacement)`: the join, with `replacement`, of the
split of `s` on `target` with the empty tokens kept. -/
def replace (s target replacement : List Char) : Outcome (List Char) :=
  (split s target true).map (fun strVec => join strVec replacement)

/-- The first offset, counted from `i` at the head of the given suffix, at which
`target` starts. -/
def findAt (target : List Char) : List Char → Nat → Option Nat
  | [], i => if target.isPrefixOf [] then some i else none
  | c :: l, i => if target.isPrefixOf (c :: l) then some i else findAt target l (i + 1)

/-- `s.find(target)`: the position of the first occurrence of `target` in `s`,
`npos` when there is none. -/
def find (s target : List Char) : Nat := (findAt target s 0).getD npos

/-- The last offset, counted from `i` at the head of the given suffix, at which
`target` starts. -/
def rfindAt (target : List Char) : List Char → Nat → Option Nat
  | [], i => if target.isPrefixOf [] then some i else none
  | c :: l, i =>
    match rfindAt target l (i + 1) with
    | some r => some r
    | none => if target.isPrefixOf (c :: l) then some i else none

/-- `s.rfind(target)`: the position of the last occurrence of `target` in `s`,
`npos` when there is none. -/
def rfind (s target : List Char) : Nat := (rfindAt target s 0).getD npos

/-- `s.replace(pos, len, str)`: the characters before `pos`, then `str`, then
the characters from `pos + len` on; `none` stands for the `std::out_of_range` it
throws when `pos` is beyond the size of `s`. -/
def string_replace (s : List Char) (pos len : Nat) (str : List Char) : Option (List Char) :=
  if pos > s.length then none else some (s.take pos ++ str ++ s.drop (pos + len))

/-- `replaceFirst(s, target, replacement)`. -/
def replaceFirst (s target replacement : List Char) : Outcome (List Char) :=
  let pos := find s target
  if npos ≠ pos then
    match string_replace s pos target.length replacement with
    | none => .threw (.out_of_range "basic_string::replace")
    | some result => .returned result
  else
    .returned s

/-- `replaceLast(s, target, replacement)`. -/
def replaceLast (s target replacement : List Char) : Outcome (List Char) :=
  let pos := rfind s target
  if npos ≠ pos then
    match string_replace s pos target.length replacement with
    | none => .threw (.out_of_range "basic_string::replace")
    | some result => .returned result
  else
    .returned s

/-! ## regexReplaceLast -/

/-- The loop `for (iter = std::prev(end); iter != begin; --iter)` of
`regexReplaceLast`, with `iter - begin` as its argument.  The matcher
`std::regex_search(iter, end, sm, engine)` is the function `search`: given the
characters from `iter` to the end it returns nothing, or the position and the
length of `sm[0]`; the code uses the length only. -/
def regexReplaceLastLoop (search : List Char → Option (Nat × Nat))
    (s replacement : List Char) : Nat → Outcome (List Char)
  | 0 => .returned s
  | i + 1 =>
    match search (s.drop (i + 1)) with
    | some sm =>
      match string_replace s (i + 1) sm.2 replacement with
      | none => .threw (.out_of_range "basic_string::replace")
      | some result => .returned result
    | none => regexReplaceLastLoop search s replacement i

/-- `regexReplaceLast(s, target, replacement)`, the compiled pattern `target`
being the matcher `search`.  On the empty string `std::prev(end)` steps before
the beginning and the search reads outside the string. -/
def regexReplaceLast (search : List Char → Option (Nat × Nat))
    (s replacement : List Char) : Outcome (List Char) :=
  if s.isEmpty then .readPastEnd
  else regexReplaceLastLoop search s replacement (s.length - 1)

/-- A matcher for a pattern without metacharacters: it finds the first
occurrence of the characters of `pattern` in the range it is given. -/
def literalMatcher (pattern : List Char) (range : List Char) : Option (Nat × Nat) :=
  (findAt pattern range 0).map (fun position => (position, pattern.length))

/-! ## maketrans -/

/-- The conversion of a `size_type` to `int`: the value modulo `2 ^ 32`, read in
two's complement. -/
def intOfSize (n : Nat) : Int :=
  if n % 4294967296 < 2147483648 then ((n % 4294967296 : Nat) : Int)
  else ((n % 4294967296 : Nat) : Int) - 4294967296

/-- The conversion of an `int` to `size_type`, as in the comparison of a size
with an `int`. -/
def sizeOfInt (i : Int) : Nat := (i % 18446744073709551616).toNat

/-- `std::set<char>(std::begin(str), std::end(str)).size()`: the number of
different characters of `str`. -/
def distinctCount (str : List Char) : Nat := str.dedup.length

/-- The loop `for (int i = 0; i < fromLength; ++i) table[from[i]] = to[i];`
with `n` iterations left, `char` taken unsigned.  The result is `none` when an
index is outside its array. -/
def fillTable (from_ to_ : List Char) : Nat → Nat → List Char → Option (List Char)
  | 0, _, table => some table
  | n + 1, i, table =>
    match from_[i]?, to_[i]? with
    | some f, some t =>
      if f.toNat < table.length then fillTable from_ to_ n (i + 1) (table.set f.toNat t)
      else none
    | _, _ => none

/-- The pass `if (table[ch]) ch = table[ch];` over the characters of the
result, `char` taken unsigned.  The result is `none` when an index is outside
the table. -/
def applyTable (table : List Char) : List Char → Option (List Char)
  | [] => some []
  | ch :: rest =>
    match table[ch.toNat]? with
    | none => none
    | some t =>
      match applyTable table rest with
      | none => none
      | some result => some ((if t ≠ NUL then t else ch) :: result)

/-- `maketrans(s, from, to)`. -/
def maketrans (s from_ to_ : List Char) : Outcome (List Char) :=
  let fromLength := intOfSize from_.length
  let toLength := intOfSize to_.length
  if fromLength ≠ toLength ∨ fromLength > 256 ∨ toLength > 256 then
    .returned s
  else if distinctCount from_ ≠ sizeOfInt fromLength ∨
      distinctCount to_ ≠ sizeOfInt toLength then
    .returned s
  else
    match fillTable from_ to_ fromLength.toNat 0 (List.replicate 256 NUL) with
    | none => .readPastEnd
    | some table =>
      match applyTable table s with
      | none => .readPastEnd
      | some result => .returned result

/-! ## The loop of sformat: fuel and single iterations -/

theorem sformatLoop_mono (args : List Int) :
    ∀ (fuel fuel1 : Nat) (fmt : List Char) (st : FmtState) (o : Outcome FmtState),
      sformatLoop args fuel fmt st = o → o ≠ .outOfFuel → fuel ≤ fuel1 →
      sformatLoop args fuel1 fmt st = o := by
  intro fuel
  induction fuel with
  | zero =>
    intro fuel1 fmt st o h ho _
    simp [sformatLoop] at h
    exact absurd h.symm ho
  | succ k ih =>
    intro fuel1 fmt st o h ho hle
    obtain ⟨j, rfl⟩ : ∃ j, fuel1 = j + 1 := ⟨fuel1 - 1, by omega⟩
    simp only [sformatLoop] at h ⊢
    cases hb : sformatBody args fmt st with
    | stop o1 => simpa [hb] using h
    | next fmt1 st1 =>
      rw [hb] at h
      exact ih j fmt1 st1 o h ho (by omega)

theorem sformatLoop_next (args : List Int) (fuel : Nat) (fmt fmt1 : List Char)
    (st st1 : FmtState) (h : sformatBody args fmt st = .next fmt1 st1) :
    sformatLoop args (fuel + 1) fmt st = sformatLoop args fuel fmt1 st1 := by
  simp [sformatLoop, h]

theorem sformatLoop_stop (args : List Int) (fuel : Nat) (fmt : List Char)
    (st : FmtState) (o : Outcome FmtState) (h : sformatBody args fmt st = .stop o) :
    sformatLoop args (fuel + 1) fmt st = o := by
  simp [sformatLoop, h]

theorem body_nul (args : List Int) (fmt : List Char) (st : FmtState) :
    sformatBody args (NUL :: fmt) st = .stop (.returned st) := by
  simp [sformatBody]

theorem body_plain (args : List Int) (c : Char) (fmt : List Char) (st : FmtState)
    (hc : plainChar c) :
    sformatBody args (c :: fmt) st = .next fmt { st with result := st.result ++ [c] } := by
  obtain ⟨h0, h1, h2⟩ := hc
  simp [sformatBody, h0, h1, h2]

theorem GetTupleArgByIndex_eq (args : List Int) :
    ∀ (i : Nat), i < args.length → GetTupleArgByIndex args i = args[i]? := by
  induction args with
  | nil => intro i h; simp at h
  | cons a tp ih =>
    intro i h
    cases tp with
    | nil =>
      have : i = 0 := by simpa using h
      subst this
      simp [GetTupleArgByIndex]
    | cons b tp =>
      cases i with
      | zero => simp [GetTupleArgByIndex]
      | succ j =>
        have hj : j < (b :: tp).length := by simpa using h
        simp [GetTupleArgByIndex, ih j hj]

theorem body_auto (args : List Int) (fmt : List Char) (st : FmtState)
    (ha : st.autoIncrease = true) (hi : st.autoIncreaseIndex < args.length) :
    sformatBody args ('{' :: '}' :: fmt) st
      = .next fmt { st with result := st.result ++ argText args st.autoIncreaseIndex,
                            autoIncreaseIndex := st.autoIncreaseIndex + 1 } := by
  have h0 : ('{' : Char) ≠ NUL := by decide
  have h1 : ('}' : Char) ≠ '{' := by decide
  have hg := GetTupleArgByIndex_eq args _ hi
  rw [List.getElem?_eq_getElem hi] at hg
  simp [sformatBody, h0, h1, ha, Nat.not_le.mpr hi, hg, argText, List.getElem?_eq_getElem hi]

theorem body_auto_locked (args : List Int) (fmt : List Char) (st : FmtState)
    (ha : st.autoIncrease = false) :
    sformatBody args ('{' :: '}' :: fmt) st
      = .stop (.threw (.invalid_argument
          "cannot switch from automatic field numbering to manual field specification")) := by
  have h0 : ('{' : Char) ≠ NUL := by decide
  have h1 : ('}' : Char) ≠ '{' := by decide
  simp [sformatBody, h0, h1, ha]

theorem body_auto_range (args : List Int) (fmt : List Char) (st : FmtState)
    (ha : st.autoIncrease = true) (hi : args.length ≤ st.autoIncreaseIndex) :
    sformatBody args ('{' :: '}' :: fmt) st
      = .stop (.threw (.invalid_argument
          "Replacement index out of range for positional args tuple")) := by
  have h0 : ('{' : Char) ≠ NUL := by decide
  have h1 : ('}' : Char) ≠ '{' := by decide
  simp [sformatBody, h0, h1, ha, hi]

theorem body_close_stray (args : List Int) (d : Char) (fmt : List Char) (st : FmtState)
    (hd : d ≠ '}') :
    sformatBody args ('}' :: d :: fmt) st
      = .stop (.threw (.invalid_argument
          "Single \x27\x7d\x27 encountered in format string")) := by
  have h0 : ('}' : Char) ≠ NUL := by decide
  have h1 : ('}' : Char) ≠ '{' := by decide
  simp [sformatBody, h0, h1, hd]

theorem body_manual_after_auto (args : List Int) (d : Char) (fmt : List Char)
    (st : FmtState) (h1 : d ≠ '{') (h2 : d ≠ '}') (hi : st.autoIncreaseIndex ≠ 0) :
    sformatBody args ('{' :: d :: fmt) st
      = .stop (.threw (.invalid_argument
          "cannot switch from automatic field numbering to manual field specification")) := by
  have h0 : ('{' : Char) ≠ NUL := by decide
  simp [sformatBody, h0, h1, h2, hi]


/-! ## Placeholders with a body -/

theorem scanIndexStr_step (c d : Char) (fmt acc : List Char) (hc : c ≠ '}') :
    scanIndexStr (c :: d :: fmt) acc = scanIndexStr (d :: fmt) (acc ++ [d]) := by
  rw [scanIndexStr]
  simp [hc]

theorem scanIndexStr_closed :
    ∀ (n : List Char) (c : Char) (acc rest : List Char), c ≠ '}' → (∀ x ∈ n, x ≠ '}') →
      scanIndexStr (c :: (n ++ '}' :: rest)) acc = some (acc ++ n ++ ['}'], rest) := by
  intro n
  induction n with
  | nil =>
    intro c acc rest hc _
    simp [scanIndexStr, hc]
  | cons x n ih =>
    intro c acc rest hc hn
    have hx : x ≠ '}' := hn x (by simp)
    have hn1 : ∀ y ∈ n, y ≠ '}' := fun y hy => hn y (by simp [hy])
    rw [List.cons_append, scanIndexStr_step c x _ acc hc, ih x (acc ++ [x]) rest hx hn1]
    simp

theorem scanIndexStr_open :
    ∀ (q : List Char) (c : Char) (acc : List Char), c ≠ '}' → (∀ x ∈ q, x ≠ '}') →
      scanIndexStr (c :: q) acc = none := by
  intro q
  induction q with
  | nil =>
    intro c acc hc _
    simp [scanIndexStr, hc]
  | cons x q ih =>
    intro c acc hc hq
    have hx : x ≠ '}' := hq x (by simp)
    have hq1 : ∀ y ∈ q, y ≠ '}' := fun y hy => hq y (by simp [hy])
    rw [scanIndexStr_step c x _ acc hc, ih x (acc ++ [x]) hx hq1]

theorem isdigit_bounds (c : Char) (h : isdigit c = true) : 48 ≤ c.toNat ∧ c.toNat ≤ 57 := by
  simpa [isdigit] using h

theorem isdigit_ne (c d : Char) (h : isdigit c = true) (hd : isdigit d = false) : c ≠ d := by
  intro hcd
  rw [hcd, hd] at h
  exact Bool.noConfusion h

theorem isdigit_not_isspace (c : Char) (h : isdigit c = true) : isspace c = false := by
  have hb := isdigit_bounds c h
  simp only [isspace, Bool.or_eq_false_iff, Bool.and_eq_false_iff, decide_eq_false_iff_not]
  constructor
  · omega
  · right; omega

theorem takeWhile_isdigit_literal (n rest : List Char) (hn : ∀ c ∈ n, isdigit c = true) :
    (n ++ '}' :: rest).takeWhile isdigit = n := by
  induction n with
  | nil =>
    have : isdigit '}' = false := by decide
    simp [List.takeWhile, this]
  | cons x n ih =>
    have hx : isdigit x = true := hn x (by simp)
    have hn1 : ∀ y ∈ n, isdigit y = true := fun y hy => hn y (by simp [hy])
    simp [List.takeWhile, hx, ih hn1]

theorem stoi_literal (n : List Char) (hn : isLiteral n) :
    stoi (n ++ ['}'])
      = if INT_MAX < (digitsValue n : Int) then .error (.out_of_range "stoi")
        else .ok (digitsValue n : Int) := by
  obtain ⟨hne, hd⟩ := hn
  cases n with
  | nil => exact absurd rfl hne
  | cons x n =>
    have hx : isdigit x = true := hd x (by simp)
    have hsp : isspace x = false := isdigit_not_isspace x hx
    have hm : x ≠ '-' := isdigit_ne x '-' hx (by decide)
    have hp : x ≠ '+' := isdigit_ne x '+' hx (by decide)
    have htw := takeWhile_isdigit_literal (x :: n) [] hd
    have hnn : ¬ ((digitsValue (x :: n) : Int) < INT_MIN) := by
      have : (0 : Int) ≤ (digitsValue (x :: n) : Int) := Int.ofNat_nonneg _
      unfold INT_MIN
      omega
    simp only [List.cons_append] at htw ⊢
    simp [stoi, List.dropWhile, hsp, hm, hp, htw, hnn]

theorem isNumeric_literal (n : List Char) (hn : isLiteral n) :
    isNumeric (n ++ ['}']) = true := by
  obtain ⟨hne, hd⟩ := hn
  cases n with
  | nil => exact absurd rfl hne
  | cons x n =>
    have hx : isdigit x = true := hd x (by simp)
    have hm : x ≠ '-' := isdigit_ne x '-' hx (by decide)
    have hp : x ≠ '+' := isdigit_ne x '+' hx (by decide)
    simp [isNumeric, hm, hp, hx]

theorem literal_no_brace (n : List Char) (hn : isLiteral n) :
    (∀ x ∈ n, x ≠ '}') ∧ ∃ d n1, n = d :: n1 ∧ d ≠ '{' ∧ d ≠ '}' := by
  obtain ⟨hne, hd⟩ := hn
  refine ⟨fun x hx => isdigit_ne x '}' (hd x hx) (by decide), ?_⟩
  cases n with
  | nil => exact absurd rfl hne
  | cons x n =>
    have hx : isdigit x = true := hd x (by simp)
    exact ⟨x, n, rfl, isdigit_ne x '{' hx (by decide), isdigit_ne x '}' hx (by decide)⟩

theorem body_manual (args : List Int) (n fmt : List Char) (st : FmtState)
    (hn : isLiteral n) (hlt : digitsValue n < args.length) (hsz : args.length < 2147483648)
    (hi : st.autoIncreaseIndex = 0) :
    sformatBody args ('{' :: (n ++ '}' :: fmt)) st
      = .next fmt { st with autoIncrease := false,
                            result := st.result ++ argText args (digitsValue n) } := by
  have h0 : ('{' : Char) ≠ NUL := by decide
  have hb : ('{' : Char) ≠ '}' := by decide
  obtain ⟨hnb, d, n1, hdn, hd1, hd2⟩ := literal_no_brace n hn
  have hscan := scanIndexStr_closed n '{' [] fmt hb hnb
  have hstoi := stoi_literal n hn
  have hnum := isNumeric_literal n hn
  have hmax : ¬ (INT_MAX < (digitsValue n : Int)) := by unfold INT_MAX; omega
  rw [if_neg hmax] at hstoi
  have hge : ¬ ((digitsValue n : Int) ≥ (args.length : Int)) := by omega
  have hneg : ¬ ((digitsValue n : Int) < 0) := by omega
  subst hdn
  simp only [List.cons_append, List.nil_append] at hscan hstoi hnum ⊢
  simp [sformatBody, h0, hd1, hd2, hi, hscan, hnum, hstoi, hge, hneg, GetArgByIndex, argText,
    List.getElem?_eq_getElem hlt]


theorem body_unterminated (args : List Int) (d : Char) (fmt : List Char) (st : FmtState)
    (h1 : d ≠ '{') (h2 : d ≠ '}') (hq : ∀ x ∈ fmt, x ≠ '}') (hi : st.autoIncreaseIndex = 0) :
    sformatBody args ('{' :: d :: fmt) st = .stop .readPastEnd := by
  have h0 : ('{' : Char) ≠ NUL := by decide
  have hb : ('{' : Char) ≠ '}' := by decide
  have hscan := scanIndexStr_open (d :: fmt) '{' [] hb (by
    intro x hx
    rcases List.mem_cons.mp hx with rfl | hx
    · exact h2
    · exact hq x hx)
  simp [sformatBody, h0, h1, h2, hi, hscan]

/-! ## Runs of the loop over a stretch of the template -/

theorem run_text (args : List Int) :
    ∀ (p : List Char), (∀ c ∈ p, plainChar c) → ∀ (fuel : Nat) (rest : List Char)
      (st : FmtState),
      sformatLoop args (fuel + p.length) (p ++ rest) st
        = sformatLoop args fuel rest { st with result := st.result ++ p } := by
  intro p
  induction p with
  | nil => intro _ fuel rest st; simp
  | cons c p ih =>
    intro hp fuel rest st
    have hc : plainChar c := hp c (by simp)
    have hp1 : ∀ x ∈ p, plainChar x := fun x hx => hp x (by simp [hx])
    rw [List.length_cons, ← Nat.add_assoc, List.cons_append,
      sformatLoop_next args _ _ _ _ _ (body_plain args c (p ++ rest) st hc), ih hp1]
    simp

theorem run_auto (args : List Int) :
    ∀ (ps : List Piece), (∀ p ∈ ps, p.isAutoStyle) → ∀ (fuel : Nat) (rest : List Char)
      (st : FmtState), st.autoIncrease = true →
      st.autoIncreaseIndex + countAuto ps ≤ args.length →
      sformatLoop args (fuel + ps.length) (template ps ++ rest) st
        = sformatLoop args fuel rest
            { st with result := st.result ++ substitute args st.autoIncreaseIndex ps,
                      autoIncreaseIndex := st.autoIncreaseIndex + countAuto ps } := by
  intro ps
  induction ps with
  | nil => intro _ fuel rest st _ _; simp [template, substitute, countAuto]
  | cons p ps ih =>
    intro hps fuel rest st ha hk
    have hps1 : ∀ x ∈ ps, x.isAutoStyle := fun x hx => hps x (by simp [hx])
    have hp : p.isAutoStyle := hps p (by simp)
    cases p with
    | text c =>
      have hc : plainChar c := hp
      simp only [countAuto] at hk
      rw [List.length_cons, ← Nat.add_assoc]
      simp only [template, Piece.source, List.cons_append, List.nil_append]
      rw [sformatLoop_next args _ _ _ _ _ (body_plain args c _ st hc),
        ih hps1 fuel rest { st with result := st.result ++ [c] } ha hk]
      simp [substitute, countAuto]
    | auto =>
      simp only [countAuto] at hk
      have hi : st.autoIncreaseIndex < args.length := by omega
      rw [List.length_cons, ← Nat.add_assoc]
      simp only [template, Piece.source, List.cons_append, List.nil_append]
      rw [sformatLoop_next args _ _ _ _ _ (body_auto args _ st ha hi),
        ih hps1 fuel rest
          { st with result := st.result ++ argText args st.autoIncreaseIndex,
                    autoIncreaseIndex := st.autoIncreaseIndex + 1 } ha (by simp only []; omega)]
      simp [substitute, countAuto, Nat.add_assoc, Nat.add_comm 1]
    | manual n => exact absurd hp (by simp [Piece.isAutoStyle])

theorem run_manual (args : List Int) (hsz : args.length < 2147483648) :
    ∀ (ps : List Piece), (∀ p ∈ ps, p.isManualStyle args.length) →
      ∀ (fuel : Nat) (rest : List Char) (st : FmtState), st.autoIncreaseIndex = 0 →
      ∃ b, sformatLoop args (fuel + ps.length) (template ps ++ rest) st
        = sformatLoop args fuel rest
            { autoIncrease := b, autoIncreaseIndex := 0,
              result := st.result ++ substitute args 0 ps } := by
  intro ps
  induction ps with
  | nil =>
    intro _ fuel rest st hi
    refine ⟨st.autoIncrease, ?_⟩
    cases st
    simp only [] at hi
    subst hi
    simp [template, substitute]
  | cons p ps ih =>
    intro hps fuel rest st hi
    have hps1 : ∀ x ∈ ps, x.isManualStyle args.length := fun x hx => hps x (by simp [hx])
    have hp : p.isManualStyle args.length := hps p (by simp)
    cases p with
    | text c =>
      have hc : plainChar c := hp
      obtain ⟨b, hb⟩ := ih hps1 fuel rest { st with result := st.result ++ [c] } hi
      refine ⟨b, ?_⟩
      rw [List.length_cons, ← Nat.add_assoc]
      simp only [template, Piece.source, List.cons_append, List.nil_append]
      rw [sformatLoop_next args _ _ _ _ _ (body_plain args c _ st hc), hb]
      simp [substitute]
    | auto => exact absurd hp (by simp [Piece.isManualStyle])
    | manual n =>
      obtain ⟨hn, hlt⟩ : isLiteral n ∧ digitsValue n < args.length := hp
      obtain ⟨b, hb⟩ := ih hps1 fuel rest
        { st with autoIncrease := false,
                  result := st.result ++ argText args (digitsValue n) } hi
      refine ⟨b, ?_⟩
      rw [List.length_cons, ← Nat.add_assoc]
      simp only [template, Piece.source, List.cons_append, List.nil_append, List.append_assoc]
      rw [sformatLoop_next args _ _ _ _ _ (body_manual args n _ st hn hlt hsz hi), hb]
      simp [substitute]

theorem template_length (ps : List Piece) : ps.length ≤ (template ps).length := by
  induction ps with
  | nil => simp [template]
  | cons p ps ih =>
    cases p <;> simp [template, Piece.source] <;> omega

theorem sformatRun_of_loop (t : List Char) (args : List Int) (o : Outcome FmtState)
    (k : Nat) (h : sformatLoop args k (t ++ [NUL]) FmtState.init = o)
    (ho : o ≠ .outOfFuel) (hk : k ≤ t.length + 2) : sformatRun t args = o :=
  sformatLoop_mono args k (t.length + 2) (t ++ [NUL]) FmtState.init o h ho hk


theorem sformat_of_loop (t : List Char) (args : List Int) (o : Outcome FmtState)
    (k : Nat) (h : sformatLoop args k (t ++ [NUL]) FmtState.init = o)
    (ho : o ≠ .outOfFuel) (hk : k ≤ t.length + 2) :
    sformat t args = o.map FmtState.result := by
  rw [sformat, sformatRun_of_loop t args o k h ho hk]

/-! ## The template formatter -/

/-- C1: for a template made only of non-brace characters and `{}` placeholders,
and at least as many arguments as placeholders, `sformat` returns the template
with the i-th `{}` replaced by the decimal text of `args[i]`. -/
theorem sformat_auto_numbered (ps : List Piece) (args : List Int)
    (hps : ∀ p ∈ ps, p.isAutoStyle) (hk : countAuto ps ≤ args.length) :
    sformat (template ps) args = .returned (substitute args 0 ps) := by
  have h := run_auto args ps hps 1 [NUL] FmtState.init rfl
    (by simpa [FmtState.init] using hk)
  rw [sformatLoop_stop args 0 _ _ _ (body_nul args [] _)] at h
  rw [sformat_of_loop (template ps) args _ (1 + ps.length) h (by simp)
    (by have := template_length ps; omega)]
  simp [Outcome.map, FmtState.init]

theorem sformat_auto_numbered_witness :
    countAuto [.auto, .text '-', .auto] ≤ [(1 : Int), 2].length ∧
      sformat ['{', '}', '-', '{', '}'] [1, 2] = .returned ['1', '-', '2'] :=
  ⟨by decide, sformat_auto_numbered [.auto, .text '-', .auto] [1, 2] (by decide) (by decide)⟩

/-- C2: for a template made only of non-brace characters and placeholders
`{n}`, each `n` a decimal literal below the number of arguments, `sformat`
returns the template with every `{n}` replaced by the decimal text of
`args[n]`.  The number of arguments fits an `int`, as `argSize` does. -/
theorem sformat_manual_indexed (ps : List Piece) (args : List Int)
    (hsz : args.length < 2147483648) (hps : ∀ p ∈ ps, p.isManualStyle args.length) :
    sformat (template ps) args = .returned (substitute args 0 ps) := by
  obtain ⟨b, h⟩ := run_manual args hsz ps hps 1 [NUL] FmtState.init rfl
  rw [sformatLoop_stop args 0 _ _ _ (body_nul args [] _)] at h
  rw [sformat_of_loop (template ps) args _ (1 + ps.length) h (by simp)
    (by have := template_length ps; omega)]
  simp [Outcome.map, FmtState.init]

theorem sformat_manual_indexed_witness :
    sformat ['{', '0', '}', '-', '{', '1', '}'] [1, 2] = .returned ['1', '-', '2'] ∧
      sformat ['{', '1', '}', '-', '{', '0', '}'] [1, 2] = .returned ['2', '-', '1'] :=
  ⟨sformat_manual_indexed [.manual ['0'], .text '-', .manual ['1']] [1, 2]
      (by decide) (by decide),
    sformat_manual_indexed [.manual ['1'], .text '-', .manual ['0']] [1, 2]
      (by decide) (by decide)⟩

/-- C3: on the template `{abc}` the code does not return `{abc}`: the inner loop
appends the closing brace to the body before it stops, and the text re-emitted
is `{abc}}`. -/
theorem sformat_passthrough_doubles_closing_brace :
    sformat ['{', 'a', 'b', 'c', '}'] [1] = .returned ['{', 'a', 'b', 'c', '}', '}'] ∧
      sformat ['{', 'a', 'b', 'c', '}'] [] = .returned ['{', 'a', 'b', 'c', '}', '}'] := by
  decide

/-- C4: when a `{}` placeholder follows an in-range placeholder `{n}`, or an
in-range `{n}` follows a `{}`, with brace-free text before and between them,
`sformat` throws `std::invalid_argument` and returns no string, whatever comes
after. -/
theorem sformat_style_conflict (p m n rest : List Char) (args : List Int)
    (hp : ∀ c ∈ p, plainChar c) (hm : ∀ c ∈ m, plainChar c) (hn : isLiteral n)
    (hlt : digitsValue n < args.length) (hsz : args.length < 2147483648) :
    sformat (p ++ '{' :: (n ++ '}' :: (m ++ '{' :: '}' :: rest))) args
        = .threw (.invalid_argument
            "cannot switch from automatic field numbering to manual field specification") ∧
      sformat (p ++ '{' :: '}' :: (m ++ '{' :: (n ++ '}' :: rest))) args
        = .threw (.invalid_argument
            "cannot switch from automatic field numbering to manual field specification") := by
  constructor
  · have h : sformatLoop args (0 + 1 + m.length + 1 + p.length)
        ((p ++ '{' :: (n ++ '}' :: (m ++ '{' :: '}' :: rest))) ++ [NUL]) FmtState.init
        = .threw (.invalid_argument
            "cannot switch from automatic field numbering to manual field specification") := by
      simp only [List.append_assoc, List.cons_append]
      rw [run_text args p hp,
        sformatLoop_next args _ _ _ _ _ (body_manual args n _ _ hn hlt hsz rfl),
        run_text args m hm]
      exact sformatLoop_stop args _ _ _ _ (body_auto_locked args _ _ rfl)
    rw [sformat_of_loop _ args _ _ h (by simp) (by simp; omega)]
    rfl
  · obtain ⟨_, d, n1, hdn, hd1, hd2⟩ := literal_no_brace n hn
    subst hdn
    have h : sformatLoop args (0 + 1 + m.length + 1 + p.length)
        ((p ++ '{' :: '}' :: (m ++ '{' :: ((d :: n1) ++ '}' :: rest))) ++ [NUL]) FmtState.init
        = .threw (.invalid_argument
            "cannot switch from automatic field numbering to manual field specification") := by
      simp only [List.append_assoc, List.cons_append]
      rw [run_text args p hp,
        sformatLoop_next args _ _ _ _ _
          (body_auto args _ _ rfl (by simp only [FmtState.init]; omega)),
        run_text args m hm]
      exact sformatLoop_stop args _ _ _ _
        (body_manual_after_auto args d _ _ hd1 hd2 (by simp [FmtState.init]))
    rw [sformat_of_loop _ args _ _ h (by simp) (by simp; omega)]
    rfl

theorem sformat_style_conflict_witness :
    sformat ['{', '0', '}', '{', '}'] [1, 2]
        = .threw (.invalid_argument
            "cannot switch from automatic field numbering to manual field specification") ∧
      sformat ['{', '}', '{', '0', '}'] [1, 2]
        = .threw (.invalid_argument
            "cannot switch from automatic field numbering to manual field specification") :=
  sformat_style_conflict [] [] ['0'] [] [1, 2] (by decide) (by decide) (by decide)
    (by decide) (by decide)


/-- C7: on a template `p ++ "{" ++ q` with `p` brace-free and `q` holding no
closing brace and not starting with an opening brace, the code raises nothing:
its inner loop runs through the terminating NUL and reads beyond the buffer. -/
theorem sformat_unterminated_reads_past_end (p q : List Char) (args : List Int)
    (hp : ∀ c ∈ p, plainChar c) (hq : ∀ x ∈ q, x ≠ '}') (hq0 : q.head? ≠ some '{') :
    sformat (p ++ '{' :: q) args = .readPastEnd := by
  have hnul : NUL ≠ '}' := by decide
  have hnul1 : NUL ≠ '{' := by decide
  have hbody : ∀ st : FmtState, st.autoIncreaseIndex = 0 →
      sformatBody args ('{' :: (q ++ [NUL])) st = .stop .readPastEnd := by
    intro st hst
    cases q with
    | nil => exact body_unterminated args NUL [] st hnul1 hnul (by simp) hst
    | cons d q1 =>
      have hd1 : d ≠ '{' := by simpa using hq0
      have hd2 : d ≠ '}' := hq d (by simp)
      refine body_unterminated args d (q1 ++ [NUL]) st hd1 hd2 ?_ hst
      intro x hx
      rcases List.mem_append.mp hx with hx | hx
      · exact hq x (by simp [hx])
      · have : x = NUL := by simpa using hx
        rw [this]; exact hnul
  have h : sformatLoop args (0 + 1 + p.length) ((p ++ '{' :: q) ++ [NUL]) FmtState.init
      = .readPastEnd := by
    simp only [List.append_assoc, List.cons_append]
    rw [run_text args p hp]
    exact sformatLoop_stop args _ _ _ _ (hbody _ rfl)
  rw [sformat_of_loop _ args _ _ h (by simp) (by simp; omega)]
  rfl

theorem sformat_unterminated_reads_past_end_witness :
    sformat ['{', 'a', 'b', 'c'] [1] = .readPastEnd :=
  sformat_unterminated_reads_past_end [] ['a', 'b', 'c'] [1] (by decide) (by decide)
    (by decide)

/-- C8: on a template `p ++ "}" ++ q` with `p` brace-free and `q` not starting
with a closing brace, `sformat` throws `std::invalid_argument` and returns no
string. -/
theorem sformat_stray_closing_brace (p q : List Char) (args : List Int)
    (hp : ∀ c ∈ p, plainChar c) (hq : q.head? ≠ some '}') :
    sformat (p ++ '}' :: q) args
      = .threw (.invalid_argument "Single \x27\x7d\x27 encountered in format string") := by
  have hnul : NUL ≠ '}' := by decide
  have hbody : ∀ st : FmtState, sformatBody args ('}' :: (q ++ [NUL])) st
      = .stop (.threw (.invalid_argument
          "Single \x27\x7d\x27 encountered in format string")) := by
    intro st
    cases q with
    | nil => exact body_close_stray args NUL [] st hnul
    | cons d q1 => exact body_close_stray args d (q1 ++ [NUL]) st (by simpa using hq)
  have h : sformatLoop args (0 + 1 + p.length) ((p ++ '}' :: q) ++ [NUL]) FmtState.init
      = .threw (.invalid_argument
          "Single \x27\x7d\x27 encountered in format string") := by
    simp only [List.append_assoc, List.cons_append]
    rw [run_text args p hp]
    exact sformatLoop_stop args _ _ _ _ (hbody _)
  rw [sformat_of_loop _ args _ _ h (by simp) (by simp; omega)]
  rfl

theorem sformat_stray_closing_brace_witness :
    sformat ['a', '}', 'b'] [1, 2]
      = .threw (.invalid_argument "Single \x27\x7d\x27 encountered in format string") :=
  sformat_stray_closing_brace ['a'] ['b'] [1, 2] (by decide) (by decide)


/-! ## Searching a string -/

theorem findFirst_none (p : Char → Bool) (l : List Char) (h : ∀ x ∈ l, p x = false) :
    findFirst p l = none := by
  induction l with
  | nil => rfl
  | cons c l ih =>
    have hc : p c = false := h c (by simp)
    have hl : ∀ x ∈ l, p x = false := fun x hx => h x (by simp [hx])
    simp [findFirst, hc, ih hl]

theorem findFirst_append (p : Char → Bool) (a : List Char) (c : Char) (b : List Char)
    (ha : ∀ x ∈ a, p x = false) (hc : p c = true) :
    findFirst p (a ++ c :: b) = some a.length := by
  induction a with
  | nil => simp [findFirst, hc]
  | cons x a ih =>
    have hx : p x = false := ha x (by simp)
    have ha1 : ∀ y ∈ a, p y = false := fun y hy => ha y (by simp [hy])
    simp [findFirst, hx, ih ha1]

theorem first_match_cases (p : Char → Bool) (l : List Char) :
    (∀ x ∈ l, p x = false) ∨
      ∃ a c b, l = a ++ c :: b ∧ (∀ x ∈ a, p x = false) ∧ p c = true := by
  induction l with
  | nil => left; simp
  | cons x l ih =>
    by_cases hx : p x = true
    · right; exact ⟨[], x, l, rfl, by simp, hx⟩
    · have hx1 : p x = false := by simpa using hx
      rcases ih with h | ⟨a, c, b, hl, ha, hc⟩
      · left
        intro y hy
        rcases List.mem_cons.mp hy with rfl | hy
        · exact hx1
        · exact h y hy
      · right
        refine ⟨x :: a, c, b, by simp [hl], ?_, hc⟩
        intro y hy
        rcases List.mem_cons.mp hy with rfl | hy
        · exact hx1
        · exact ha y hy

theorem drop_bound (s : List Char) (pos : Nat) (a : List Char) (c : Char) (b : List Char)
    (h : s.drop pos = a ++ c :: b) : pos + a.length + 1 + b.length = s.length := by
  have := congrArg List.length h
  simp at this
  omega

theorem drop_after (s : List Char) (pos : Nat) (a r : List Char)
    (h : s.drop pos = a ++ r) : s.drop (pos + a.length) = r := by
  rw [← List.drop_drop, h]
  simp

theorem find_first_of_none (s target : List Char) (pos : Nat)
    (h : ∀ x ∈ s.drop pos, x ∉ target) : find_first_of s target pos = npos := by
  have hf : findFirst (fun c => decide (c ∈ target)) (s.drop pos) = none :=
    findFirst_none _ _ (fun x hx => by simpa using h x hx)
  simp [find_first_of, hf]

theorem find_first_of_some (s target : List Char) (pos : Nat) (a : List Char) (c : Char)
    (b : List Char) (h : s.drop pos = a ++ c :: b) (ha : ∀ x ∈ a, x ∉ target)
    (hc : c ∈ target) : find_first_of s target pos = pos + a.length := by
  have hf : findFirst (fun c => decide (c ∈ target)) (a ++ c :: b) = some a.length :=
    findFirst_append _ a c b (fun x hx => by simpa using ha x hx) (by simpa using hc)
  simp [find_first_of, h, hf]

theorem find_first_not_of_none (s target : List Char) (pos : Nat)
    (h : ∀ x ∈ s.drop pos, x ∈ target) : find_first_not_of s target pos = npos := by
  have hf : findFirst (fun c => !decide (c ∈ target)) (s.drop pos) = none :=
    findFirst_none _ _ (fun x hx => by simpa using h x hx)
  simp [find_first_not_of, hf]

theorem find_first_not_of_some (s target : List Char) (pos : Nat) (a : List Char) (c : Char)
    (b : List Char) (h : s.drop pos = a ++ c :: b) (ha : ∀ x ∈ a, x ∈ target)
    (hc : c ∉ target) : find_first_not_of s target pos = pos + a.length := by
  have hf : findFirst (fun c => !decide (c ∈ target)) (a ++ c :: b) = some a.length :=
    findFirst_append _ a c b (fun x hx => by simpa using ha x hx) (by simpa using hc)
  simp [find_first_not_of, h, hf]

theorem substr_prefix (s : List Char) (pos count : Nat) (a r : List Char)
    (h : s.drop pos = a ++ r) (hpos : pos ≤ s.length) (hcount : count = a.length) :
    substr s pos count = some a := by
  subst hcount
  simp [substr, Nat.not_lt.mpr hpos, h]

theorem substr_rest (s : List Char) (pos count : Nat) (hpos : pos ≤ s.length)
    (hcount : s.length - pos ≤ count) : substr s pos count = some (s.drop pos) := by
  have : (s.drop pos).take count = s.drop pos :=
    List.take_of_length_le (by simpa using hcount)
  simp [substr, Nat.not_lt.mpr hpos, this]

/-! ## The tokens of a string -/

theorem tokens_ne_nil (target l : List Char) : tokens target l ≠ [] := by
  induction l with
  | nil => simp [tokens]
  | cons c l ih =>
    simp only [tokens]
    split
    · simp
    · split <;> simp

theorem tokens_plain (target a : List Char) (ha : ∀ x ∈ a, x ∉ target) :
    tokens target a = [a] := by
  induction a with
  | nil => rfl
  | cons x a ih =>
    have hx : x ∉ target := ha x (by simp)
    have ha1 : ∀ y ∈ a, y ∉ target := fun y hy => ha y (by simp [hy])
    simp [tokens, hx, ih ha1]

theorem tokens_append_delim (target a : List Char) (c : Char) (b : List Char)
    (ha : ∀ x ∈ a, x ∉ target) (hc : c ∈ target) :
    tokens target (a ++ c :: b) = a :: tokens target b := by
  induction a with
  | nil => simp [tokens, hc]
  | cons x a ih =>
    have hx : x ∉ target := ha x (by simp)
    have ha1 : ∀ y ∈ a, y ∉ target := fun y hy => ha y (by simp [hy])
    simp [tokens, hx, ih ha1]

theorem tokens_length (target l : List Char) :
    (tokens target l).length = l.countP (fun c => decide (c ∈ target)) + 1 := by
  induction l with
  | nil => rfl
  | cons c l ih =>
    by_cases hc : c ∈ target
    · simp [tokens, hc, ih]
    · have hne := tokens_ne_nil target l
      cases ht : tokens target l with
      | nil => exact absurd ht hne
      | cons t ts =>
        rw [ht] at ih
        simp [tokens, hc, ht] at ih ⊢
        exact ih

theorem tokens_no_delim (target l : List Char) :
    ∀ t ∈ tokens target l, ∀ c ∈ t, c ∉ target := by
  induction l with
  | nil => simp [tokens]
  | cons x l ih =>
    by_cases hx : x ∈ target
    · intro t ht
      simp only [tokens, hx, if_true, List.mem_cons] at ht
      rcases ht with rfl | ht
      · simp
      · exact ih t ht
    · cases hts : tokens target l with
      | nil => exact absurd hts (tokens_ne_nil target l)
      | cons t1 ts =>
        rw [hts] at ih
        intro t ht
        simp only [tokens, hx, if_false, hts, List.mem_cons] at ht
        rcases ht with rfl | ht
        · intro c hc
          rcases List.mem_cons.mp hc with rfl | hc
          · exact hx
          · exact ih t1 (by simp) c hc
        · exact ih t (by simp [ht])

theorem tokens_last_empty (target l : List Char) (c : Char)
    (hl : l.getLast? = some c) (hc : c ∈ target) :
    (tokens target l).getLast? = some [] := by
  induction l with
  | nil => simp at hl
  | cons x l ih =>
    cases l with
    | nil =>
      have : x = c := by simpa using hl
      subst this
      simp [tokens, hc]
    | cons y l1 =>
      have hl1 : (y :: l1).getLast? = some c := by simpa [List.getLast?_cons_cons] using hl
      have h := ih hl1
      have hne := tokens_ne_nil target (y :: l1)
      by_cases hx : x ∈ target
      · simp only [tokens, hx, if_true] at h ⊢
        cases hts : tokens target (y :: l1) with
        | nil => exact absurd hts hne
        | cons t1 ts =>
          simp only [tokens] at hts
          rw [hts] at h
          rw [hts, List.getLast?_cons_cons]
          exact h
      · cases hts : tokens target (y :: l1) with
        | nil => exact absurd hts hne
        | cons t1 ts =>
          rw [hts] at h
          have hstep : tokens target (x :: y :: l1) = (x :: t1) :: ts := by
            rw [tokens]
            simp [hx, hts]
          rw [hstep]
          cases ts with
          | nil =>
            have : t1 = [] := by simpa using h
            subst this
            exfalso
            have hy := tokens_length target (y :: l1)
            rw [hts] at hy
            have hpos : 0 < (y :: l1).countP (fun c => decide (c ∈ target)) := by
              apply List.countP_pos_iff.mpr
              refine ⟨c, ?_, by simpa using hc⟩
              exact List.mem_of_getLast?_eq_some hl1
            simp only [List.length_singleton] at hy
            omega
          | cons t2 ts2 =>
            rw [List.getLast?_cons_cons] at h ⊢
            exact h


theorem filter_tokens_skip (target a r : List Char) (ha : ∀ x ∈ a, x ∈ target) :
    (tokens target (a ++ r)).filter (fun t => !t.isEmpty)
      = (tokens target r).filter (fun t => !t.isEmpty) := by
  induction a with
  | nil => rfl
  | cons x a ih =>
    have hx : x ∈ target := ha x (by simp)
    have ha1 : ∀ y ∈ a, y ∈ target := fun y hy => ha y (by simp [hy])
    simp [tokens, hx, ih ha1]

theorem filter_tokens_all_delim (target l : List Char) (hl : ∀ x ∈ l, x ∈ target) :
    (tokens target l).filter (fun t => !t.isEmpty) = [] := by
  have := filter_tokens_skip target l [] hl
  simpa [tokens] using this

/-! ## The loops of split -/

theorem splitKeepLoop_eq (s target : List Char) (hs : s.length < npos) :
    ∀ (fuel lastPos : Nat) (acc : List (List Char)), lastPos ≤ s.length →
      s.length - lastPos < fuel →
      splitKeepLoop s target fuel lastPos (find_first_of s target lastPos) acc
        = .returned (acc ++ tokens target (s.drop lastPos)) := by
  unfold npos at hs
  intro fuel
  induction fuel with
  | zero => intro lastPos acc _ h; omega
  | succ k ih =>
    intro lastPos acc hle hfuel
    rcases first_match_cases (fun c => decide (c ∈ target)) (s.drop lastPos) with
      hnone | ⟨a, c, b, hl, ha, hc⟩
    · have hn : ∀ x ∈ s.drop lastPos, x ∉ target := fun x hx => by simpa using hnone x hx
      have hsub : substr s lastPos (sizeSub npos lastPos) = some (s.drop lastPos) :=
        substr_rest s _ _ hle (by unfold sizeSub npos; omega)
      have hadd : sizeAdd npos 1 = 0 := by decide
      rw [find_first_of_none s target lastPos hn, splitKeepLoop]
      simp [hsub, hadd, tokens_plain target _ hn]
    · have ha1 : ∀ x ∈ a, x ∉ target := fun x hx => by simpa using ha x hx
      have hc1 : c ∈ target := by simpa using hc
      have hb := drop_bound s lastPos a c b hl
      have hsub : substr s lastPos (sizeSub (lastPos + a.length) lastPos) = some a :=
        substr_prefix s lastPos _ a (c :: b) hl hle (by unfold sizeSub; omega)
      have hadd : sizeAdd (lastPos + a.length) 1 = lastPos + a.length + 1 := by
        unfold sizeAdd; omega
      have hdrop : s.drop (lastPos + a.length + 1) = b := by
        have := drop_after s lastPos (a ++ [c]) b (by simp [hl])
        simpa [Nat.add_assoc] using this
      rw [find_first_of_some s target lastPos a c b hl ha1 hc1, splitKeepLoop]
      simp only [hsub, hadd]
      rw [if_neg (by omega), ih (lastPos + a.length + 1) (acc ++ [a]) (by omega) (by omega),
        hdrop, hl, tokens_append_delim target a c b ha1 hc1]
      simp

theorem splitDropLoop_eq (s target : List Char) (hs : s.length < npos) :
    ∀ (fuel q : Nat) (acc : List (List Char)),
      (q ≤ s.length ∧ s.length - q < fuel) ∨ (q = npos ∧ 0 < fuel) →
      splitDropLoop s target fuel (find_first_not_of s target q)
          (find_first_of s target (find_first_not_of s target q)) acc
        = .returned (acc ++ (tokens target (s.drop q)).filter (fun t => !t.isEmpty)) := by
  have hdropn : s.drop npos = [] := List.drop_of_length_le (Nat.le_of_lt hs)
  have hfn : find_first_of s target npos = npos :=
    find_first_of_none s target npos (by simp [hdropn])
  unfold npos at hs
  intro fuel
  induction fuel with
  | zero => intro q acc h; omega
  | succ k ih =>
    intro q acc hq
    rcases first_match_cases (fun c => !decide (c ∈ target)) (s.drop q) with
      hall | ⟨a, c, b, hl, ha, hc⟩
    · have hall1 : ∀ x ∈ s.drop q, x ∈ target := fun x hx => by simpa using hall x hx
      rw [find_first_not_of_none s target q hall1, hfn, splitDropLoop]
      simp [filter_tokens_all_delim target _ hall1]
    · have ha1 : ∀ x ∈ a, x ∈ target := fun x hx => by simpa using ha x hx
      have hc1 : c ∉ target := by simpa using hc
      have hb := drop_bound s q a c b hl
      have hq1 : s.length - q < k + 1 := by
        rcases hq with ⟨_, h⟩ | ⟨h, _⟩
        · exact h
        · unfold npos at h; omega
      have hk : 0 < k := by omega
      have hdrop : s.drop (q + a.length) = c :: b := drop_after s q a (c :: b) hl
      have hne : npos ≠ q + a.length := by unfold npos; omega
      rw [find_first_not_of_some s target q a c b hl ha1 hc1, hl,
        filter_tokens_skip target a (c :: b) ha1]
      rcases first_match_cases (fun c => decide (c ∈ target)) (c :: b) with
        hnone | ⟨a2, c2, b2, hl2, ha2, hc2⟩
      · have hn : ∀ x ∈ c :: b, x ∉ target := fun x hx => by simpa using hnone x hx
        have hsub : substr s (q + a.length) (sizeSub npos (q + a.length)) = some (c :: b) := by
          rw [← hdrop]
          exact substr_rest s _ _ (by omega) (by unfold sizeSub npos; omega)
        rw [find_first_of_none s target (q + a.length) (by rw [hdrop]; exact hn),
          splitDropLoop]
        simp only [hsub]
        rw [if_pos (Or.inl hne), ih npos (acc ++ [c :: b]) (Or.inr ⟨rfl, hk⟩), hdropn,
          tokens_plain target _ hn]
        simp [tokens]
      · have ha3 : ∀ x ∈ a2, x ∉ target := fun x hx => by simpa using ha2 x hx
        have hc3 : c2 ∈ target := by simpa using hc2
        have ha2ne : a2 ≠ [] := by
          intro h
          subst h
          have : c = c2 := by simpa using congrArg List.head? hl2
          exact hc1 (this ▸ hc3)
        have hlen2 : 0 < a2.length := List.length_pos.mpr ha2ne
        have hb2 : (c :: b).length = (a2 ++ c2 :: b2).length := congrArg List.length hl2
        simp only [List.length_cons, List.length_append] at hb2
        have hsub : substr s (q + a.length)
            (sizeSub (q + a.length + a2.length) (q + a.length)) = some a2 :=
          substr_prefix s (q + a.length) _ a2 (c2 :: b2) (by rw [hdrop, hl2]) (by omega)
            (by unfold sizeSub; omega)
        have hdrop2 : s.drop (q + a.length + a2.length) = c2 :: b2 :=
          drop_after s (q + a.length) a2 (c2 :: b2) (by rw [hdrop, hl2])
        rw [find_first_of_some s target (q + a.length) a2 c2 b2 (by rw [hdrop, hl2]) ha3 hc3,
          splitDropLoop]
        simp only [hsub]
        rw [if_pos (Or.inl hne),
          ih (q + a.length + a2.length) (acc ++ [a2]) (Or.inl ⟨by omega, by omega⟩),
          hdrop2, hl2, tokens_append_delim target a2 c2 b2 ha3 hc3]
        simp [tokens, hc3, ha2ne]

theorem split_keep_eq (s target : List Char) (hs : s.length < npos) :
    split s target true = .returned (tokens target s) := by
  have h := splitKeepLoop_eq s target hs (s.length + 1) 0 [] (Nat.zero_le _) (by omega)
  simpa [split] using h

theorem split_drop_eq (s target : List Char) (hs : s.length < npos) :
    split s target false
      = .returned ((tokens target s).filter (fun t => !t.isEmpty)) := by
  have h := splitDropLoop_eq s target hs (s.length + 1) 0 []
    (Or.inl ⟨Nat.zero_le _, by omega⟩)
  simpa [split] using h


/-! ## The split engine -/

/-- C9: `split(s, target, true)` returns one token more than `s` has positions
holding a character of `target`; no token contains such a character; the last
token is empty when `s` ends with one; the result is `[""]` for the empty string
and `[s]` when `s` holds none.  The size of a string is below `npos`. -/
theorem split_keepEmpty_tokens (s target : List Char) (hs : s.length < npos) :
    ∃ toks, split s target true = .returned toks ∧
      toks.length = s.countP (fun c => decide (c ∈ target)) + 1 ∧
      (∀ t ∈ toks, ∀ c ∈ t, c ∉ target) ∧
      (∀ c, s.getLast? = some c → c ∈ target → toks.getLast? = some []) ∧
      (s = [] → toks = [[]]) ∧
      ((∀ c ∈ s, c ∉ target) → toks = [s]) := by
  refine ⟨tokens target s, split_keep_eq s target hs, tokens_length target s,
    tokens_no_delim target s, fun c h1 h2 => tokens_last_empty target s c h1 h2, ?_,
    fun h => tokens_plain target s h⟩
  intro h
  subst h
  rfl

theorem split_keepEmpty_tokens_witness :
    ['a', ',', ',', 'b'].length < npos ∧
      split ['a', ',', ',', 'b'] [','] true = .returned [['a'], [], ['b']] ∧
      ∃ toks, split ['a', ',', ',', 'b'] [','] true = .returned toks ∧
        toks.length = ['a', ',', ',', 'b'].countP (fun c => decide (c ∈ [','])) + 1 ∧
        (∀ t ∈ toks, ∀ c ∈ t, c ∉ [',']) ∧
        (∀ c, ['a', ',', ',', 'b'].getLast? = some c → c ∈ [','] →
          toks.getLast? = some []) ∧
        (['a', ',', ',', 'b'] = [] → toks = [[]]) ∧
        ((∀ c ∈ ['a', ',', ',', 'b'], c ∉ [',']) → toks = [['a', ',', ',', 'b']]) :=
  ⟨by decide, by decide, split_keepEmpty_tokens ['a', ',', ',', 'b'] [','] (by decide)⟩

/-- C10: `split(s, target, false)` returns the tokens of `split(s, target, true)`
without the empty ones: no returned token is empty, and the empty string gives
the empty sequence.  The size of a string is below `npos`. -/
theorem split_dropEmpty_filters (s target : List Char) (hs : s.length < npos) :
    ∃ toks, split s target true = .returned toks ∧
      split s target false = .returned (toks.filter (fun t => !t.isEmpty)) ∧
      (∀ t ∈ toks.filter (fun t => !t.isEmpty), t ≠ []) ∧
      (s = [] → toks.filter (fun t => !t.isEmpty) = []) := by
  refine ⟨tokens target s, split_keep_eq s target hs, split_drop_eq s target hs, ?_, ?_⟩
  · intro t ht
    have := (List.mem_filter.mp ht).2
    intro h
    subst h
    simp at this
  · intro h
    subst h
    rfl

theorem split_dropEmpty_filters_witness :
    ['a', ',', ',', 'b'].length < npos ∧
      split ['a', ',', ',', 'b'] [','] false = .returned [['a'], ['b']] ∧
      ∃ toks, split ['a', ',', ',', 'b'] [','] true = .returned toks ∧
        split ['a', ',', ',', 'b'] [','] false
          = .returned (toks.filter (fun t => !t.isEmpty)) ∧
        (∀ t ∈ toks.filter (fun t => !t.isEmpty), t ≠ []) ∧
        (['a', ',', ',', 'b'] = [] → toks.filter (fun t => !t.isEmpty) = []) :=
  ⟨by decide, by decide, split_dropEmpty_filters ['a', ',', ',', 'b'] [','] (by decide)⟩


/-! ## join -/

theorem foldl_join_prefix (connector a : List Char) :
    ∀ (rest : List (List Char)) (acc : List Char),
      rest.foldl (fun result str => result ++ connector ++ str) (a ++ acc)
        = a ++ rest.foldl (fun result str => result ++ connector ++ str) acc := by
  intro rest
  induction rest with
  | nil => intro acc; rfl
  | cons x rest ih =>
    intro acc
    simp only [List.foldl_cons]
    rw [← ih (acc ++ connector ++ x)]
    simp [List.append_assoc]

theorem join_cons_cons (x : Char) (t : List Char) (ts : List (List Char))
    (connector : List Char) :
    join ((x :: t) :: ts) connector = x :: join (t :: ts) connector := by
  simpa [join] using foldl_join_prefix connector [x] ts t

theorem join_nil_cons (t : List Char) (ts : List (List Char)) (connector : List Char) :
    join ([] :: t :: ts) connector = connector ++ join (t :: ts) connector := by
  simpa [join] using foldl_join_prefix connector connector ts t

theorem join_tokens (c : Char) (l : List Char) : join (tokens [c] l) [c] = l := by
  induction l with
  | nil => rfl
  | cons x l ih =>
    cases hts : tokens [c] l with
    | nil => exact absurd hts (tokens_ne_nil [c] l)
    | cons t ts =>
      rw [hts] at ih
      by_cases hx : x ∈ [c]
      · have hxc : x = c := by simpa using hx
        rw [tokens, if_pos hx, hts, join_nil_cons, ih, hxc]
        rfl
      · rw [tokens, if_neg hx, hts]
        simp only []
        rw [join_cons_cons, ih]

/-- C11: for every string `s` and every character `c`, joining the tokens of
`split(s, c, true)` with `c` gives back `s`.  The size of a string is below
`npos`. -/
theorem split_join_round_trip (s : List Char) (c : Char) (hs : s.length < npos) :
    (split s [c] true).map (fun strVec => join strVec [c]) = .returned s := by
  rw [split_keep_eq s [c] hs]
  simp [Outcome.map, join_tokens]

theorem split_join_round_trip_witness :
    ['a', ',', ',', 'b'].length < npos ∧
      (split ['a', ',', ',', 'b'] [','] true).map (fun strVec => join strVec [','])
        = .returned ['a', ',', ',', 'b'] :=
  ⟨by decide, split_join_round_trip ['a', ',', ',', 'b'] ',' (by decide)⟩

/-- C12: `replace` cuts `s` at every single character of `target`, not at the
occurrences of `target` as a substring: on `"aXYb"` with target `"XY"` and
replacement `"-"` it returns `"a--b"`, where the one occurrence replaced gives
`"a-b"`; with the one-character target of `"aXbXc"` it returns `"a-b-c"`. -/
theorem replace_splits_on_each_character :
    replace ['a', 'X', 'Y', 'b'] ['X', 'Y'] ['-'] = .returned ['a', '-', '-', 'b'] ∧
      replace ['a', 'X', 'b', 'X', 'c'] ['X'] ['-'] = .returned ['a', '-', 'b', '-', 'c'] := by
  decide

/-- C13: the target `"XY"` does not occur in `"aXb"`, yet `replace` does not
return `"aXb"`: it replaces the `X`, a single character of the target, and
returns `"a-b"`. -/
theorem replace_absent_target_changes_string :
    ¬ (['X', 'Y'] <:+: ['a', 'X', 'b']) ∧
      replace ['a', 'X', 'b'] ['X', 'Y'] ['-'] = .returned ['a', '-', 'b'] := by
  decide


/-! ## Searching for a substring -/

theorem findAt_none (target : List Char) :
    ∀ (l : List Char) (i : Nat), ¬ target <:+: l → findAt target l i = none := by
  intro l
  induction l with
  | nil =>
    intro i h
    have hp : ¬ target <+: [] := fun hp => h hp.isInfix
    simp [findAt, hp]
  | cons c l ih =>
    intro i h
    have hp : ¬ target <+: c :: l := fun hp => h hp.isInfix
    have hl : ¬ target <:+: l := fun hl => h (List.infix_cons hl)
    simp [findAt, hp, ih (i + 1) hl]

theorem findAt_first (target : List Char) :
    ∀ (p l q : List Char) (i : Nat), l = p ++ target ++ q →
      (∀ p1 q1, l = p1 ++ target ++ q1 → p.length ≤ p1.length) →
      findAt target l i = some (i + p.length) := by
  intro p
  induction p with
  | nil =>
    intro l q i hl _
    have hp : target <+: l := ⟨q, by simp [hl]⟩
    cases l with
    | nil => simp [findAt, hp]
    | cons c l => simp [findAt, hp]
  | cons x p ih =>
    intro l q i hl hmin
    subst hl
    have hp : ¬ target <+: x :: p ++ target ++ q := by
      rintro ⟨q1, hq1⟩
      have := hmin [] q1 (by simp [hq1])
      simp at this
    have hmin1 : ∀ p1 q1, p ++ target ++ q = p1 ++ target ++ q1 → p.length ≤ p1.length := by
      intro p1 q1 h1
      have := hmin (x :: p1) q1 (by simp [h1])
      simpa using this
    have hrec := ih (p ++ target ++ q) q (i + 1) rfl hmin1
    simp only [List.cons_append] at hp ⊢
    rw [findAt, if_neg (by simpa using hp), hrec]
    simp [Nat.add_assoc, Nat.add_comm 1]

theorem rfindAt_none (target : List Char) :
    ∀ (l : List Char) (i : Nat), ¬ target <:+: l → rfindAt target l i = none := by
  intro l
  induction l with
  | nil =>
    intro i h
    have hp : ¬ target <+: [] := fun hp => h hp.isInfix
    simp [rfindAt, hp]
  | cons c l ih =>
    intro i h
    have hp : ¬ target <+: c :: l := fun hp => h hp.isInfix
    have hl : ¬ target <:+: l := fun hl => h (List.infix_cons hl)
    simp [rfindAt, hp, ih (i + 1) hl]

theorem rfindAt_last (target : List Char) :
    ∀ (l p q : List Char) (i : Nat), l = p ++ target ++ q →
      (∀ p1 q1, l = p1 ++ target ++ q1 → p1.length ≤ p.length) →
      rfindAt target l i = some (i + p.length) := by
  intro l
  induction l with
  | nil =>
    intro p q i hl _
    have h1 : p = [] ∧ target = [] ∧ q = [] := by simpa using hl.symm
    obtain ⟨rfl, rfl, rfl⟩ := h1
    simp [rfindAt]
  | cons c l ih =>
    intro p q i hl hmax
    cases p with
    | nil =>
      have hp : target <+: c :: l := ⟨q, by simp [hl]⟩
      have hno : ¬ target <:+: l := by
        rintro ⟨p1, q1, h1⟩
        have := hmax (c :: p1) q1 (by simp [← h1])
        simp at this
      simp [rfindAt, rfindAt_none target l (i + 1) hno, hp]
    | cons x p =>
      have hx : c = x ∧ l = p ++ target ++ q := by simpa using hl
      obtain ⟨rfl, hl1⟩ := hx
      have hmax1 : ∀ p1 q1, l = p1 ++ target ++ q1 → p1.length ≤ p.length := by
        intro p1 q1 h1
        have := hmax (c :: p1) q1 (by simp [h1])
        simpa using this
      rw [rfindAt, ih p q (i + 1) hl1 hmax1]
      simp [Nat.add_assoc, Nat.add_comm 1]

theorem string_replace_at (p target q replacement : List Char) :
    string_replace (p ++ target ++ q) p.length target.length replacement
      = some (p ++ replacement ++ q) := by
  have h1 : ¬ (p.length > (p ++ target ++ q).length) := by simp
  have h2 : (p ++ target ++ q).take p.length = p := by simp
  have h3 : (p ++ target ++ q).drop (p.length + target.length) = q := by
    rw [← List.length_append, List.drop_left]
  rw [string_replace, if_neg h1, h2, h3]


/-! ## The replace engine -/

/-- C14: when `target` does not occur in `s`, `replaceFirst` returns `s`; when
`s = p ++ target ++ q` with `p` the shortest prefix after which `target`
occurs, it returns `p ++ replacement ++ q`.  The size of a string is below
`npos`. -/
theorem replaceFirst_leftmost (s target replacement : List Char) (hs : s.length < npos) :
    (¬ target <:+: s → replaceFirst s target replacement = .returned s) ∧
      (∀ p q, s = p ++ target ++ q →
        (∀ p1 q1, s = p1 ++ target ++ q1 → p.length ≤ p1.length) →
        replaceFirst s target replacement = .returned (p ++ replacement ++ q)) := by
  constructor
  · intro h
    simp [replaceFirst, find, findAt_none target s 0 h]
  · intro p q hpq hmin
    have hfind : find s target = p.length := by
      simp [find, findAt_first target p s q 0 hpq hmin]
    have hlen : p.length ≤ s.length := by
      rw [hpq]; simp
    have hne : npos ≠ p.length := by omega
    have hrep := string_replace_at p target q replacement
    rw [← hpq] at hrep
    simp only [replaceFirst, hfind, hrep]
    rw [if_pos hne]

theorem replaceFirst_leftmost_witness :
    replaceFirst ['a', 'b', 'c'] ['X'] ['-'] = .returned ['a', 'b', 'c'] ∧
      replaceFirst ['a', 'X', 'b', 'X', 'c'] ['X'] ['-']
        = .returned ['a', '-', 'b', 'X', 'c'] :=
  ⟨(replaceFirst_leftmost ['a', 'b', 'c'] ['X'] ['-'] (by decide)).1 (by decide),
    (replaceFirst_leftmost ['a', 'X', 'b', 'X', 'c'] ['X'] ['-'] (by decide)).2
      ['a'] ['b', 'X', 'c'] rfl
      (fun p1 q1 h => by
        cases p1 with
        | nil => simp at h
        | cons x p1 => simp)⟩

/-- C15: when `target` does not occur in `s`, `replaceLast` returns `s`; when
`s = p ++ target ++ q` with `p` the longest prefix after which `target` occurs,
it returns `p ++ replacement ++ q`.  The size of a string is below `npos`. -/
theorem replaceLast_rightmost (s target replacement : List Char) (hs : s.length < npos) :
    (¬ target <:+: s → replaceLast s target replacement = .returned s) ∧
      (∀ p q, s = p ++ target ++ q →
        (∀ p1 q1, s = p1 ++ target ++ q1 → p1.length ≤ p.length) →
        replaceLast s target replacement = .returned (p ++ replacement ++ q)) := by
  constructor
  · intro h
    simp [replaceLast, rfind, rfindAt_none target s 0 h]
  · intro p q hpq hmax
    have hfind : rfind s target = p.length := by
      simp [rfind, rfindAt_last target s p q 0 hpq hmax]
    have hlen : p.length ≤ s.length := by
      rw [hpq]; simp
    have hne : npos ≠ p.length := by omega
    have hrep := string_replace_at p target q replacement
    rw [← hpq] at hrep
    simp only [replaceLast, hfind, hrep]
    rw [if_pos hne]

theorem replaceLast_rightmost_witness :
    replaceLast ['a', 'b', 'c'] ['X'] ['-'] = .returned ['a', 'b', 'c'] ∧
      replaceLast ['a', 'X', 'b', 'X', 'c'] ['X'] ['-']
        = .returned ['a', 'X', 'b', '-', 'c'] :=
  ⟨(replaceLast_rightmost ['a', 'b', 'c'] ['X'] ['-'] (by decide)).1 (by decide),
    (replaceLast_rightmost ['a', 'X', 'b', 'X', 'c'] ['X'] ['-'] (by decide)).2
      ['a', 'X', 'b'] ['c'] rfl
      (fun p1 q1 h => by
        rcases p1 with _ | ⟨a, _ | ⟨b, _ | ⟨c, _ | ⟨d, _ | ⟨e, p1⟩⟩⟩⟩⟩
        · simp
        · simp
        · simp
        · simp
        · simp at h
        · simp at h)⟩


/-! ## The transliteration table -/

set_option maxRecDepth 8192 in
/-- C16: with `from = "a"` and `to` the one NUL character, `maketrans("a", from,
to)` returns `"a"` and not the NUL character: the table entry `0` written for
`a` reads as "no mapping".  On `"hello"`, `"el"`, `"ip"` it returns `"hippo"`. -/
theorem maketrans_drops_mapping_to_nul :
    maketrans ['a'] ['a'] [NUL] = .returned ['a'] ∧
      maketrans ['h', 'e', 'l', 'l', 'o'] ['e', 'l'] ['i', 'p']
        = .returned ['h', 'i', 'p', 'p', 'o'] := by
  decide

theorem intOfSize_small (n : Nat) (h : n < 2147483648) : intOfSize n = (n : Int) := by
  have h1 : n % 4294967296 = n := Nat.mod_eq_of_lt (by omega)
  simp [intOfSize, h1, h]

theorem sizeOfInt_natCast (n : Nat) (h : n < 2147483648) : sizeOfInt (n : Int) = n := by
  unfold sizeOfInt
  omega

theorem distinctCount_of_dup (str : List Char) (h : ¬ str.Nodup) :
    distinctCount str ≠ str.length := by
  intro heq
  exact h (List.dedup_eq_self.mp ((List.dedup_sublist str).eq_of_length heq))

/-- When `from` and `to` are shorter than `2 ^ 31` characters and differ in
length, or one of them holds a character twice, `maketrans(s, from, to)` returns
`s`: the lengths fit the `int` variables that hold them. -/
theorem maketrans_malformed_mapping (s from_ to_ : List Char)
    (hf : from_.length < 2147483648) (ht : to_.length < 2147483648)
    (h : from_.length ≠ to_.length ∨ ¬ from_.Nodup ∨ ¬ to_.Nodup) :
    maketrans s from_ to_ = .returned s := by
  unfold maketrans
  simp only [intOfSize_small _ hf, intOfSize_small _ ht, sizeOfInt_natCast _ hf,
    sizeOfInt_natCast _ ht]
  split
  · rfl
  · rename_i h1
    split
    · rfl
    · rename_i h2
      exfalso
      rcases h with h | h | h
      · exact h1 (Or.inl (by exact_mod_cast h))
      · exact h2 (Or.inl (distinctCount_of_dup from_ h))
      · exact h2 (Or.inr (distinctCount_of_dup to_ h))

theorem maketrans_malformed_mapping_witness :
    maketrans ['h', 'e', 'l', 'l', 'o'] ['a', 'b'] ['a', 'a']
        = .returned ['h', 'e', 'l', 'l', 'o'] ∧
      maketrans ['h', 'e', 'l', 'l', 'o'] ['a', 'b'] ['c']
        = .returned ['h', 'e', 'l', 'l', 'o'] :=
  ⟨maketrans_malformed_mapping ['h', 'e', 'l', 'l', 'o'] ['a', 'b'] ['a', 'a']
      (by decide) (by decide) (Or.inr (Or.inr (by decide))),
    maketrans_malformed_mapping ['h', 'e', 'l', 'l', 'o'] ['a', 'b'] ['c']
      (by decide) (by decide) (Or.inl (by decide))⟩

set_option maxRecDepth 8192 in
theorem applyTable_a_to_b :
    applyTable ((List.replicate 256 NUL).set 97 'b') ['a'] = some ['b'] := by
  decide

theorem fillTable_one (from_ to_ table : List Char) (f t : Char) (hf : from_[0]? = some f)
    (ht : to_[0]? = some t) (hlt : f.toNat < table.length) :
    fillTable from_ to_ 1 0 table = some (table.set f.toNat t) := by
  rw [fillTable, hf, ht]
  simp only [hlt, if_true, fillTable]

theorem maketrans_replicate (k : Nat) (hk : intOfSize k = 1) (hk0 : k ≠ 0) :
    maketrans ['a'] (List.replicate k 'a') ['b'] = .returned ['b'] := by
  have hd : distinctCount (List.replicate k 'a') = 1 := by
    simp [distinctCount, List.replicate_dedup hk0]
  have h1 : intOfSize (['b'] : List Char).length = 1 := by decide
  have hd2 : distinctCount ['b'] = 1 := by decide
  have hs : sizeOfInt 1 = 1 := by decide
  have hpos : 0 < k := Nat.pos_of_ne_zero hk0
  have hget : (List.replicate k 'a')[0]? = some 'a' := by
    simp [List.getElem?_replicate, hpos]
  have hfill : fillTable (List.replicate k 'a') ['b'] (1 : Int).toNat 0
      (List.replicate 256 NUL) = some ((List.replicate 256 NUL).set 97 'b') :=
    fillTable_one _ _ _ 'a' 'b' hget rfl (by rw [List.length_replicate]; decide)
  rw [maketrans]
  simp only [List.length_replicate, hk, h1, hd, hd2, hs]
  rw [if_neg (by decide), if_neg (by decide), hfill]
  simp only [applyTable_a_to_b]

/-- C17: with `from` made of `2 ^ 32 + 1` copies of `a` and `to = "b"`, the
lengths differ and `from` repeats a character, yet `maketrans("a", from, to)`
returns `"b"` and not `"a"`: the length of `from` is stored in an `int`, where
it reads 1. -/
theorem maketrans_length_wraps_in_int :
    (List.replicate 4294967297 'a').length ≠ (['b'] : List Char).length ∧
      ¬ (List.replicate 4294967297 'a').Nodup ∧
      maketrans ['a'] (List.replicate 4294967297 'a') ['b'] = .returned ['b'] := by
  refine ⟨?_, ?_, maketrans_replicate 4294967297 (by decide) (by decide)⟩
  · rw [List.length_replicate]
    decide
  · rw [List.nodup_replicate]
    decide

/-! ## The last match of a pattern -/

theorem regexReplaceLastLoop_no_match (search : List Char → Option (Nat × Nat))
    (s replacement : List Char) :
    ∀ (n : Nat), (∀ i, 0 < i → i ≤ n → search (s.drop i) = none) →
      regexReplaceLastLoop search s replacement n = .returned s := by
  intro n
  induction n with
  | zero => intro _; rfl
  | succ k ih =>
    intro h
    rw [regexReplaceLastLoop, h (k + 1) (by omega) (Nat.le_refl _)]
    exact ih (fun i h1 h2 => h i h1 (by omega))

/-- C18: the loop of `regexReplaceLast` stops before offset 0: when the matcher
finds nothing in the ranges that start after the first character, the
non-empty string `s` is returned unchanged, also when the pattern matches at
the start of `s`. -/
theorem regexReplaceLast_skips_offset_zero (search : List Char → Option (Nat × Nat))
    (s replacement : List Char) (hs : s ≠ [])
    (h : ∀ i, 0 < i → i < s.length → search (s.drop i) = none) :
    regexReplaceLast search s replacement = .returned s := by
  have hlen : 0 < s.length := List.length_pos.mpr hs
  have hem : s.isEmpty = false := by
    cases s with
    | nil => exact absurd rfl hs
    | cons c l => rfl
  rw [regexReplaceLast, hem]
  exact regexReplaceLastLoop_no_match search s replacement (s.length - 1)
    (fun i h1 h2 => h i h1 (by omega))

theorem regexReplaceLast_skips_offset_zero_witness :
    literalMatcher ['a', 'b'] ['a', 'b', 'c'] = some (0, 2) ∧
      regexReplaceLast (literalMatcher ['a', 'b']) ['a', 'b', 'c'] ['X']
        = .returned ['a', 'b', 'c'] :=
  ⟨by decide,
    regexReplaceLast_skips_offset_zero (literalMatcher ['a', 'b']) ['a', 'b', 'c'] ['X']
      (by decide)
      (fun i h1 h2 => by
        have h3 : i < 3 := h2
        interval_cases i <;> decide)⟩


/-! ## Placeholders with a body that is not a number -/

theorem isNumeric_no_digit (body : List Char) (hb : ∀ c ∈ body, isdigit c = false) :
    isNumeric (body ++ ['}']) = false := by
  have hall : ∀ c ∈ body ++ ['}'], isdigit c = false := by
    intro c hc
    rcases List.mem_append.mp hc with hc | hc
    · exact hb c hc
    · have : c = '}' := by simpa using hc
      rw [this]; decide
  have hany : ∀ l : List Char, (∀ c ∈ l, isdigit c = false) → l.any isdigit = false := by
    intro l hl
    rw [List.any_eq_false]
    intro x hx
    simp [hl x hx]
  unfold isNumeric
  split
  · rw [hany _ (fun c hc => hall c (List.mem_of_mem_tail hc))]
    simp
  · rw [hany _ hall]
    simp

theorem body_passthrough (args : List Int) (body fmt : List Char) (st : FmtState)
    (hne : body ≠ []) (hb : ∀ c ∈ body, plainChar c ∧ isdigit c = false)
    (hi : st.autoIncreaseIndex = 0) :
    sformatBody args ('{' :: (body ++ '}' :: fmt)) st
      = .next fmt { st with autoIncrease := false,
                            result := st.result ++ (['{'] ++ (body ++ ['}']) ++ ['}']) } := by
  have h0 : ('{' : Char) ≠ NUL := by decide
  have hbr : ('{' : Char) ≠ '}' := by decide
  have hscan := scanIndexStr_closed body '{' [] fmt hbr (fun x hx => (hb x hx).1.2.2)
  have hnum := isNumeric_no_digit body (fun c hc => (hb c hc).2)
  cases body with
  | nil => exact absurd rfl hne
  | cons d body1 =>
    have hd := (hb d (by simp)).1
    simp only [List.cons_append, List.nil_append] at hscan hnum ⊢
    simp [sformatBody, h0, hd.2.1, hd.2.2, hi, hscan, hnum]

/-- C19, as the code has it: for a non-empty brace-free body without a digit and
brace-free texts `p`, `q`, the template `p ++ "{body}" ++ q` raises nothing, as
`p ++ q` raises nothing, and the run ends with the automatic index still 0; but
the placeholder counts as a manual field: it locks the numbering style, so a
`{}` after it raises, and it raises itself when a `{}` comes before it. -/
theorem sformat_passthrough_locks_manual_style (p q body : List Char) (args : List Int)
    (hp : ∀ c ∈ p, plainChar c) (hq : ∀ c ∈ q, plainChar c) (hne : body ≠ [])
    (hb : ∀ c ∈ body, plainChar c ∧ isdigit c = false) :
    (∃ st, sformatRun (p ++ '{' :: (body ++ '}' :: q)) args = .returned st ∧
        st.autoIncreaseIndex = 0 ∧ st.autoIncrease = false) ∧
      ¬ (sformat (p ++ '{' :: (body ++ '}' :: q)) args).raises ∧
      ¬ (sformat (p ++ q) args).raises ∧
      (∀ rest, (sformat (p ++ '{' :: (body ++ '}' :: (q ++ '{' :: '}' :: rest))) args).raises) ∧
      (∀ rest, (sformat (p ++ '{' :: '}' :: (q ++ '{' :: (body ++ '}' :: rest))) args).raises) := by
  have hrun : sformatLoop args (0 + 1 + q.length + 1 + p.length)
      ((p ++ '{' :: (body ++ '}' :: q)) ++ [NUL]) FmtState.init
      = .returned { autoIncrease := false, autoIncreaseIndex := 0,
                    result := p ++ (['{'] ++ (body ++ ['}']) ++ ['}']) ++ q } := by
    simp only [List.append_assoc, List.cons_append]
    rw [run_text args p hp,
      sformatLoop_next args _ _ _ _ _ (body_passthrough args body _ _ hne hb rfl),
      run_text args q hq]
    rw [sformatLoop_stop args 0 _ _ _ (body_nul args [] _)]
    simp [FmtState.init]
  have hplain : sformatLoop args (0 + 1 + (p ++ q).length) ((p ++ q) ++ [NUL]) FmtState.init
      = .returned { FmtState.init with result := FmtState.init.result ++ (p ++ q) } := by
    rw [run_text args (p ++ q) (by
      intro c hc
      rcases List.mem_append.mp hc with hc | hc
      · exact hp c hc
      · exact hq c hc)]
    exact sformatLoop_stop args 0 _ _ _ (body_nul args [] _)
  refine ⟨⟨_, sformatRun_of_loop _ args _ _ hrun (by simp) (by simp; omega), rfl, rfl⟩,
    ?_, ?_, ?_, ?_⟩
  · rw [sformat_of_loop _ args _ _ hrun (by simp) (by simp; omega)]
    simp [Outcome.map, Outcome.raises]
  · rw [sformat_of_loop _ args _ _ hplain (by simp) (by simp; omega)]
    simp [Outcome.map, Outcome.raises]
  · intro rest
    have h : sformatLoop args (0 + 1 + q.length + 1 + p.length)
        ((p ++ '{' :: (body ++ '}' :: (q ++ '{' :: '}' :: rest))) ++ [NUL]) FmtState.init
        = .threw (.invalid_argument
            "cannot switch from automatic field numbering to manual field specification") := by
      simp only [List.append_assoc, List.cons_append]
      rw [run_text args p hp,
        sformatLoop_next args _ _ _ _ _ (body_passthrough args body _ _ hne hb rfl),
        run_text args q hq]
      exact sformatLoop_stop args _ _ _ _ (body_auto_locked args _ _ rfl)
    rw [sformat_of_loop _ args _ _ h (by simp) (by simp; omega)]
    simp [Outcome.map, Outcome.raises]
  · intro rest
    cases body with
    | nil => exact absurd rfl hne
    | cons d body1 =>
      have hd := (hb d (by simp)).1
      by_cases ha : 0 < args.length
      · have h : sformatLoop args (0 + 1 + q.length + 1 + p.length)
            ((p ++ '{' :: '}' :: (q ++ '{' :: ((d :: body1) ++ '}' :: rest))) ++ [NUL])
            FmtState.init
            = .threw (.invalid_argument
                "cannot switch from automatic field numbering to manual field specification") := by
          simp only [List.append_assoc, List.cons_append]
          rw [run_text args p hp,
            sformatLoop_next args _ _ _ _ _ (body_auto args _ _ rfl ha),
            run_text args q hq]
          exact sformatLoop_stop args _ _ _ _
            (body_manual_after_auto args d _ _ hd.2.1 hd.2.2 (by simp [FmtState.init]))
        rw [sformat_of_loop _ args _ _ h (by simp) (by simp; omega)]
        simp [Outcome.map, Outcome.raises]
      · have h : sformatLoop args (0 + 1 + p.length)
            ((p ++ '{' :: '}' :: (q ++ '{' :: ((d :: body1) ++ '}' :: rest))) ++ [NUL])
            FmtState.init
            = .threw (.invalid_argument
                "Replacement index out of range for positional args tuple") := by
          simp only [List.append_assoc, List.cons_append]
          rw [run_text args p hp]
          exact sformatLoop_stop args _ _ _ _
            (body_auto_range args _ _ rfl (by simp only [FmtState.init]; omega))
        rw [sformat_of_loop _ args _ _ h (by simp) (by simp; omega)]
        simp [Outcome.map, Outcome.raises]


theorem sformat_passthrough_locks_manual_style_witness :
    ¬ (sformat ['x', '{', 'a', 'b', 'c', '}', 'y'] [1]).raises ∧
      ¬ (sformat ['x', 'y'] [1]).raises ∧
      (sformat ['x', '{', 'a', 'b', 'c', '}', 'y', '{', '}'] [1]).raises ∧
      (sformat ['x', '{', '}', 'y', '{', 'a', 'b', 'c', '}'] [1]).raises :=
  have h := sformat_passthrough_locks_manual_style ['x'] ['y'] ['a', 'b', 'c'] [1]
    (by decide) (by decide) (by decide) (by decide)
  ⟨h.2.1, h.2.2.1, h.2.2.2.1 [], h.2.2.2.2 []⟩

/-- C19, as stated, fails: with one argument `{abc}{}` raises although `{}`
does not, because the placeholder `{abc}` has locked the numbering style; and
`{a1}` raises although the empty template does not, because `isNumeric` accepts
the body `a1` and `stoi` rejects it. -/
theorem sformat_passthrough_not_transparent :
    ¬ ((sformat ['{', 'a', 'b', 'c', '}', '{', '}'] [1]).raises ↔
        (sformat ['{', '}'] [1]).raises) ∧
      ¬ ((sformat ['{', 'a', '1', '}'] [1]).raises ↔ (sformat [] [1]).raises) := by
  decide

/-! ## Totality of split -/

/-- C20: for every string, delimiter set and value of `keepEmpty`, `split`
returns a vector: its loop ends within `s.length + 1` iterations, with the same
result under any larger bound, and no `substr` call starts beyond the end of
`s`.  The size of a string is below `npos`. -/
theorem split_total (s target : List Char) (keepEmpty : Bool) (hs : s.length < npos) :
    ∃ strVec, split s target keepEmpty = .returned strVec ∧
      ∀ fuel, s.length < fuel →
        (if keepEmpty = true then
          splitKeepLoop s target fuel 0 (find_first_of s target 0) []
        else
          splitDropLoop s target fuel (find_first_not_of s target 0)
            (find_first_of s target (find_first_not_of s target 0)) []) = .returned strVec := by
  cases keepEmpty with
  | true =>
    refine ⟨tokens target s, split_keep_eq s target hs, ?_⟩
    intro fuel hfuel
    have h := splitKeepLoop_eq s target hs fuel 0 [] (Nat.zero_le _) (by omega)
    simpa using h
  | false =>
    refine ⟨(tokens target s).filter (fun t => !t.isEmpty), split_drop_eq s target hs, ?_⟩
    intro fuel hfuel
    have h := splitDropLoop_eq s target hs fuel 0 [] (Or.inl ⟨Nat.zero_le _, by omega⟩)
    simpa using h

theorem split_total_witness :
    (∃ strVec, split [] [] true = .returned strVec) ∧
      (∃ strVec, split [] [] false = .returned strVec) ∧
      (∃ strVec, split ['a', ',', ',', 'b'] [','] false = .returned strVec) :=
  ⟨(split_total [] [] true (by decide)).imp (fun _ h => h.1),
    (split_total [] [] false (by decide)).imp (fun _ h => h.1),
    (split_total ['a', ',', ',', 'b'] [','] false (by decide)).imp (fun _ h => h.1)⟩

end libstr
